import Mathlib

/-!
# Verification of the hand-rolled `String` buffer and C-string utilities

Shallow embedding of `src/String.hpp` (class `String`, here `Buf`) and
`src/strings/string_utils.h` (namespace `cstr`).

Modelling conventions:
* A memory region is a `List Nat` of bytes; the sentinel is the byte `0`.
* `std::size_t` is idealized as `Nat` (the quantities involved are sizes of
  lists that actually exist, so no wraparound occurs on any reachable state).
* `new char[k]` yields `k` indeterminate bytes; we represent the
  indeterminate byte by the fixed nonzero value `junk`, so that no property
  about the sentinel can hold merely by accident of zero-initialized memory.
* A possibly-null `const char *` argument is `Option (List Nat)`: `none` is
  the null pointer, `some s` is the region the pointer designates.
* A C++ exception is an `Err` value; member functions that mutate `*this`
  and may throw return `Buf × Option Err` (the final state of the object and
  the exception, if one was thrown before any mutation took effect).
-/

/-- The indeterminate content of freshly allocated, not-yet-written memory. -/
def junk : Nat := 170

/-- Exceptions thrown by the code: `std::invalid_argument`,
`std::out_of_range`, `std::bad_alloc`. -/
inductive Err where
  | invalidArgument
  | outOfRange
  | badAlloc
deriving DecidableEq, Repr

/-- `cstr::StringLength` / `std::strlen`: scan forward to the first sentinel
byte, returning the number of bytes before it.  (If the region holds no
sentinel the C code would read out of bounds; the model stops at the end of
the region.) -/
def strlen : List Nat → Nat
  | [] => 0
  | b :: r => if b = 0 then 0 else strlen r + 1

/-- `std::memcpy`-style overwrite: write the bytes `bs` into region `m`
starting at offset `off`, leaving the rest of `m` unchanged (faithful to the
code whenever `off + bs.length ≤ m.length`, which holds at every call site
under the class invariants or the stated preconditions). -/
def memwrite (m : List Nat) (off : Nat) (bs : List Nat) : List Nat :=
  m.take off ++ bs ++ m.drop (off + bs.length)

/-- The `String` class of `String.hpp`: `m_data` is the owned region
(physically `m_capacity + 1` bytes), `m_size` the character count excluding
the terminator, `m_capacity` the usable character count. -/
structure Buf where
  m_data : List Nat
  m_size : Nat
  m_capacity : Nat
deriving DecidableEq, Repr

namespace Buf

/-- `String()`: allocate one byte holding the sentinel; size 0, capacity 0. -/
def emptyBuf : Buf := ⟨[0], 0, 0⟩

/-- `allocate_exact(n)` followed by nothing else: a fresh region of `n + 1`
indeterminate bytes with capacity `n`. -/
def allocate_exact (n : Nat) : List Nat := List.replicate (n + 1) junk

/-- `String(const char *s)` on a non-null `s`: measure `n = strlen(s)`,
allocate exactly `n + 1` bytes, copy the `n` content bytes, write the
sentinel at offset `n`, set size to `n`. -/
def fromCStr (s : List Nat) : Buf :=
  let n := strlen s
  let d := memwrite (allocate_exact n) 0 (s.take n)
  ⟨d.set n 0, n, n⟩

/-- `String(const char *s)` including the null check
(`throw std::invalid_argument`). -/
def mkFromC (s : Option (List Nat)) : Except Err Buf :=
  match s with
  | none => .error .invalidArgument
  | some s => .ok (fromCStr s)

/-- Copy constructor: exact-fit allocation of `other.m_size` characters,
then copy `m_size + 1` bytes (content plus terminator). -/
def copyBuf (other : Buf) : Buf :=
  let d := memwrite (allocate_exact other.m_size) 0 (other.m_data.take (other.m_size + 1))
  ⟨d, other.m_size, other.m_size⟩

/-- Move constructor: the target takes the source's three members, the
source is reset to a fresh 1-byte empty buffer.  Returns
(target, state of the moved-from source). -/
def moveBuf (other : Buf) : Buf × Buf :=
  (⟨other.m_data, other.m_size, other.m_capacity⟩, ⟨[0], 0, 0⟩)

/-- `swap`: exchange all three members. Returns (new this, new other). -/
def swapBuf (a b : Buf) : Buf × Buf := (b, a)

/-- Copy assignment `operator=(String other)` called with an lvalue: the
by-value parameter is copy-constructed from the argument, then swapped into
`*this`; observably `*this` becomes that exact-fit copy. -/
def copy_assign (_this other : Buf) : Buf := copyBuf other

/-- Move assignment `b2 = std::move(b1)`: the by-value parameter is
move-constructed from `b1`, then swapped into `b2`.  Returns
(new `b2`, state of the moved-from `b1`). -/
def move_assign (_this src : Buf) : Buf × Buf :=
  ((moveBuf src).1, (moveBuf src).2)

/-- `clear()`: size to 0, sentinel at offset 0, capacity kept. -/
def clear (b : Buf) : Buf := ⟨b.m_data.set 0 0, 0, b.m_capacity⟩

/-- `reserve(new_cap)`: no-op if `new_cap ≤ m_capacity`, else allocate
`new_cap + 1` bytes, copy `m_size + 1` bytes of existing content, adopt. -/
def reserve (b : Buf) (new_cap : Nat) : Buf :=
  if new_cap ≤ b.m_capacity then b
  else
    let newbuf := List.replicate (new_cap + 1) junk
    ⟨memwrite newbuf 0 (b.m_data.take (b.m_size + 1)), b.m_size, new_cap⟩

/-- `ensure_capacity_for(desired_size)`: return unchanged when capacity
suffices; otherwise grow to `desired` on first allocation, else to
`m_capacity * 3 / 2 + 8`, raised to `desired` if still short, via `reserve`. -/
def ensure_capacity_for (b : Buf) (desired : Nat) : Buf :=
  if desired ≤ b.m_capacity then b
  else
    let new_cap := if b.m_capacity = 0 then desired else b.m_capacity * 3 / 2 + 8
    let new_cap := if new_cap < desired then desired else new_cap
    b.reserve new_cap

/-- `push_back(c)`: ensure room for one more byte, store it at `m_size`,
increment the size, restore the terminator. -/
def push_back (b : Buf) (c : Nat) : Buf :=
  let b := b.ensure_capacity_for (b.m_size + 1)
  ⟨(b.m_data.set b.m_size c).set (b.m_size + 1) 0, b.m_size + 1, b.m_capacity⟩

/-- `assign(s)`: null check; if the new length exceeds capacity, build a
temporary with the constructor and swap (so `*this` becomes an exact-fit
buffer); otherwise overwrite in place and fix the length. -/
def assign (b : Buf) (s : Option (List Nat)) : Buf × Option Err :=
  match s with
  | none => (b, some .invalidArgument)
  | some s =>
    let n := strlen s
    if b.m_capacity < n then (fromCStr s, none)
    else (⟨(memwrite b.m_data 0 (s.take n)).set n 0, n, b.m_capacity⟩, none)

/-- `append(s)`: null check; ensure capacity for `m_size + n`, copy the `n`
source bytes after the current content, bump the size, restore the
terminator. -/
def append (b : Buf) (s : Option (List Nat)) : Buf × Option Err :=
  match s with
  | none => (b, some .invalidArgument)
  | some s =>
    let n := strlen s
    let b := b.ensure_capacity_for (b.m_size + n)
    (⟨(memwrite b.m_data b.m_size (s.take n)).set (b.m_size + n) 0,
      b.m_size + n, b.m_capacity⟩, none)

/-- `shrink_to_fit()`: no-op when already exact; else reallocate to exactly
`m_size` characters, copying content plus terminator. -/
def shrink_to_fit (b : Buf) : Buf :=
  if b.m_capacity = b.m_size then b
  else ⟨memwrite (allocate_exact b.m_size) 0 (b.m_data.take (b.m_size + 1)),
        b.m_size, b.m_size⟩

/-- `operator+(const String&, const String&)`: copy the left operand, then
append the right operand's `c_str()` (its raw region) — never null. -/
def concatBB (l r : Buf) : Buf := (append (copyBuf l) (some r.m_data)).1

/-- `operator+(const String&, const char*)`: copy the left operand, then
append the raw C string; a null right operand makes `append` throw, so no
`String` value is produced. -/
def concatBC (l : Buf) (s : Option (List Nat)) : Except Err Buf :=
  match s with
  | none => .error .invalidArgument
  | some s => .ok (append (copyBuf l) (some s)).1

/-- `size()`. -/
def size (b : Buf) : Nat := b.m_size

/-- `capacity()`. -/
def capacity (b : Buf) : Nat := b.m_capacity

/-- `c_str()`: the sentinel-terminated owned region. -/
def c_str (b : Buf) : List Nat := b.m_data

/-- The observable content: the `m_size` meaningful bytes. -/
def content (b : Buf) : List Nat := b.m_data.take b.m_size

/-- The class invariants of `String.hpp`: the owned region physically holds
`m_capacity + 1` bytes (I1/I4), `m_size ≤ m_capacity` (I3), and the byte at
offset `m_size` is the sentinel (I2). -/
def Inv (b : Buf) : Prop :=
  b.m_data.length = b.m_capacity + 1 ∧
  b.m_size ≤ b.m_capacity ∧
  b.m_data[b.m_size]? = some 0

instance (b : Buf) : Decidable (Inv b) := by
  unfold Inv; infer_instance

end Buf

/-! Outcome model for the empty constructor with an explicit allocation
oracle, for the claim about allocation failure.  `String()` is not
`noexcept` (the comment in the source says "removed noexcept - calls new
which might throw"), so when `new char[1]` fails it throws `std::bad_alloc`
which propagates to the caller; the program does not abort. -/

/-- How a constructor call can end: a constructed object, a propagated
exception (recoverable by the caller), or process termination/abort. -/
inductive CtorOutcome where
  | ok (b : Buf)
  | thrown (e : Err)
  | aborted
deriving DecidableEq, Repr

/-- `String()` with an allocation oracle: if `new char[1]` succeeds the
empty string is built; if it fails, `std::bad_alloc` propagates (the
constructor has no handler and is not `noexcept`). -/
def mkEmptyAlloc (allocOK : Bool) : CtorOutcome :=
  if allocOK then .ok Buf.emptyBuf else .thrown .badAlloc

namespace Cstr

/-- The bytes the `while ((*p++ = *src++) != '\0')` loop of `StringCopy` /
`StringCat` writes: the content of `src` up to, and including, its first
sentinel. -/
def cstrBytes (s : List Nat) : List Nat := s.take (strlen s) ++ [0]

/-- `cstr::StringCat(dst, src)`: scan to the first sentinel of `dst`
(position `strlen dst`), then copy `src` there, sentinel included.  The C
function returns the original `dst` pointer; the model returns the updated
contents of that same region. -/
def StringCat (dst src : List Nat) : List Nat :=
  memwrite dst (strlen dst) (cstrBytes src)

end Cstr

/-- The two facts the spec claims after every completed operation:
`data[length] == 0` (I2) and `length <= capacity` (I3). -/
def Buf.sentinelAndLen (b : Buf) : Prop :=
  b.m_data[b.m_size]? = some 0 ∧ b.m_size ≤ b.m_capacity

instance (b : Buf) : Decidable b.sentinelAndLen := by
  unfold Buf.sentinelAndLen; infer_instance

/-- `data[length] == 0` and `length ≤ capacity` after every operation of the
public interface, applied to invariant-satisfying states `b`, `b2`, an
arbitrary source region `s`, an arbitrary byte `c` and an arbitrary reserve
request `n`. -/
def Buf.afterEveryOp (b b2 : Buf) (s : List Nat) (c n : Nat) : Prop :=
  Buf.emptyBuf.sentinelAndLen ∧
  (Buf.fromCStr s).sentinelAndLen ∧
  (Buf.copyBuf b).sentinelAndLen ∧
  (Buf.moveBuf b).1.sentinelAndLen ∧
  (Buf.moveBuf b).2.sentinelAndLen ∧
  (Buf.copy_assign b b2).sentinelAndLen ∧
  (Buf.move_assign b b2).1.sentinelAndLen ∧
  (Buf.move_assign b b2).2.sentinelAndLen ∧
  b.clear.sentinelAndLen ∧
  (b.push_back c).sentinelAndLen ∧
  (b.append (some s)).1.sentinelAndLen ∧
  (b.append none).1.sentinelAndLen ∧
  (b.assign (some s)).1.sentinelAndLen ∧
  (b.assign none).1.sentinelAndLen ∧
  (b.reserve n).sentinelAndLen ∧
  b.shrink_to_fit.sentinelAndLen ∧
  (Buf.swapBuf b b2).1.sentinelAndLen ∧
  (Buf.swapBuf b b2).2.sentinelAndLen ∧
  (Buf.concatBB b b2).sentinelAndLen ∧
  (∀ rr, Buf.concatBC b (some s) = Except.ok rr → rr.sentinelAndLen)

/-! ## Basic lemmas about `strlen` and `memwrite` -/

theorem strlen_le_length (s : List Nat) : strlen s ≤ s.length := by
  induction s with
  | nil => simp [strlen]
  | cons b r ih =>
    by_cases hb : b = 0
    · simp [strlen, hb]
    · simp [strlen, hb]
      omega

theorem strlen_sentinel (c r : List Nat) (hc : 0 ∉ c) :
    strlen (c ++ 0 :: r) = c.length := by
  induction c with
  | nil => simp [strlen]
  | cons b c ih =>
    have hb : b ≠ 0 := by intro h; exact hc (by simp [h])
    have hc' : 0 ∉ c := fun h => hc (by simp [h])
    simp [strlen, hb, ih hc']

theorem length_take_strlen (s : List Nat) : (s.take (strlen s)).length = strlen s := by
  simp [strlen_le_length s]

theorem take_strlen_sentinel (c r : List Nat) (hc : 0 ∉ c) :
    (c ++ 0 :: r).take (strlen (c ++ 0 :: r)) = c := by
  rw [strlen_sentinel c r hc]
  exact List.take_left c (0 :: r)

theorem length_memwrite (m bs : List Nat) (off : Nat)
    (h : off + bs.length ≤ m.length) :
    (memwrite m off bs).length = m.length := by
  simp [memwrite]
  omega

theorem take_memwrite (m bs : List Nat) (off : Nat) (h : off ≤ m.length) :
    (memwrite m off bs).take off = m.take off := by
  unfold memwrite
  have h1 : (m.take off).length = off := by simp; omega
  rw [List.append_assoc, List.take_left' h1]

theorem drop_memwrite (m bs : List Nat) (off : Nat) (h : off ≤ m.length) :
    (memwrite m off bs).drop (off + bs.length) = m.drop (off + bs.length) := by
  unfold memwrite
  have h2 : (m.take off ++ bs).length = off + bs.length := by simp; omega
  rw [List.drop_left' h2]

theorem getElem?_memwrite_mid (m bs : List Nat) (off i : Nat)
    (hoff : off ≤ m.length) (hi : i < bs.length) :
    (memwrite m off bs)[off + i]? = bs[i]? := by
  unfold memwrite
  have h1 : (m.take off).length = off := by simp; omega
  have h2 : (m.take off ++ bs).length = off + bs.length := by simp; omega
  rw [List.getElem?_append_left (by omega)]
  rw [List.getElem?_append_right (by omega)]
  congr 1
  omega

theorem getElem?_memwrite_left (m bs : List Nat) (off i : Nat)
    (hoff : off ≤ m.length) (hi : i < off) :
    (memwrite m off bs)[i]? = m[i]? := by
  unfold memwrite
  have h1 : (m.take off).length = off := by simp; omega
  have h2 : (m.take off ++ bs).length = off + bs.length := by simp; omega
  rw [List.getElem?_append_left (by omega)]
  rw [List.getElem?_append_left (by omega)]
  rw [List.getElem?_take_of_lt hi]

theorem take_set_of_le (l : List Nat) (i k v : Nat) (h : k ≤ i) :
    (l.set i v).take k = l.take k := by
  apply List.ext_getElem?
  intro j
  by_cases hj : j < k
  · rw [List.getElem?_take_of_lt hj, List.getElem?_take_of_lt hj,
      List.getElem?_set_ne (by omega)]
  · rw [List.getElem?_take, List.getElem?_take]
    simp [if_neg hj]

theorem take_memwrite_full (m bs : List Nat) (off : Nat) (h : off ≤ m.length) :
    (memwrite m off bs).take (off + bs.length) = m.take off ++ bs := by
  unfold memwrite
  have h2 : (m.take off ++ bs).length = off + bs.length := by simp; omega
  rw [List.take_left' h2]

theorem take_succ_sentinel (l : List Nat) (n : Nat) (h : l[n]? = some 0) :
    l.take (n + 1) = l.take n ++ [0] := by
  rw [List.take_succ, h]
  rfl

/-! ## Normal forms of the constructors and of `reserve` -/

namespace Buf

theorem fromCStr_eq (s : List Nat) :
    fromCStr s = ⟨s.take (strlen s) ++ [0], strlen s, strlen s⟩ := by
  have h1 : (s.take (strlen s)).length = strlen s := length_take_strlen s
  unfold fromCStr memwrite allocate_exact
  simp only [List.take_zero, List.nil_append, Nat.zero_add, h1]
  rw [List.drop_replicate]
  simp only [Nat.add_sub_cancel_left, List.replicate_one]
  rw [List.set_append_right _ _ (by omega)]
  simp [h1]

theorem copyBuf_eq (b : Buf) (hb : b.Inv) :
    copyBuf b = ⟨b.m_data.take b.m_size ++ [0], b.m_size, b.m_size⟩ := by
  obtain ⟨hlen, hsz, hsent⟩ := hb
  have h1 : (b.m_data.take (b.m_size + 1)).length = b.m_size + 1 := by
    simp; omega
  unfold copyBuf memwrite allocate_exact
  simp only [List.take_zero, List.nil_append, Nat.zero_add, h1]
  rw [List.drop_replicate]
  simp only [Nat.sub_self, List.replicate_zero, List.append_nil]
  rw [take_succ_sentinel _ _ hsent]

theorem reserve_eq (b : Buf) (n : Nat) (hb : b.Inv) (h : b.m_capacity < n) :
    b.reserve n =
      ⟨b.m_data.take b.m_size ++ [0] ++ List.replicate (n - b.m_size) junk,
       b.m_size, n⟩ := by
  obtain ⟨hlen, hsz, hsent⟩ := hb
  have h1 : (b.m_data.take (b.m_size + 1)).length = b.m_size + 1 := by
    simp; omega
  unfold reserve memwrite
  rw [if_neg (by omega)]
  simp only [allocate_exact, List.take_zero, List.nil_append, Nat.zero_add, h1]
  rw [List.drop_replicate]
  have h2 : n + 1 - (b.m_size + 1) = n - b.m_size := by omega
  rw [h2, take_succ_sentinel _ _ hsent]

/-! ## Invariant preservation helpers -/

theorem Inv_mk (c r : List Nat) (sz cap : Nat) (hc : c.length = sz)
    (hlen : sz + 1 + r.length = cap + 1) :
    Inv ⟨c ++ 0 :: r, sz, cap⟩ := by
  refine ⟨?_, ?_, ?_⟩
  · show (c ++ 0 :: r).length = cap + 1
    simp only [List.length_append, List.length_cons, hc]
    omega
  · show sz ≤ cap
    omega
  · show (c ++ 0 :: r)[sz]? = some 0
    rw [List.getElem?_append_right (by omega)]
    simp [hc]

theorem emptyBuf_Inv : Inv emptyBuf := by decide

theorem fromCStr_Inv (s : List Nat) : Inv (fromCStr s) := by
  rw [fromCStr_eq]
  exact Inv_mk _ [] _ _ (length_take_strlen s) (by simp)

theorem copyBuf_Inv (b : Buf) (hb : b.Inv) : Inv (copyBuf b) := by
  rw [copyBuf_eq b hb]
  refine Inv_mk _ [] _ _ ?_ (by simp)
  have := hb.1
  have := hb.2.1
  simp
  omega

theorem reserve_size (b : Buf) (n : Nat) : (b.reserve n).m_size = b.m_size := by
  unfold reserve
  split
  · rfl
  · rfl

theorem reserve_cap_of_gt (b : Buf) (n : Nat) (h : b.m_capacity < n) :
    (b.reserve n).m_capacity = n := by
  unfold reserve
  rw [if_neg (by omega)]

theorem reserve_Inv (b : Buf) (n : Nat) (hb : b.Inv) : Inv (b.reserve n) := by
  by_cases h : n ≤ b.m_capacity
  · unfold reserve
    rw [if_pos h]
    exact hb
  · rw [reserve_eq b n hb (by omega)]
    rw [List.append_assoc, List.singleton_append]
    refine Inv_mk _ _ _ _ ?_ ?_
    · have := hb.1
      have := hb.2.1
      simp
      omega
    · have := hb.2.1
      simp
      omega

theorem reserve_take (b : Buf) (n : Nat) (hb : b.Inv) :
    (b.reserve n).m_data.take (b.m_size + 1) = b.m_data.take (b.m_size + 1) := by
  by_cases h : n ≤ b.m_capacity
  · unfold reserve
    rw [if_pos h]
  · rw [reserve_eq b n hb (by omega)]
    show ((b.m_data.take b.m_size ++ [0]) ++ _).take (b.m_size + 1) = _
    have h1 : (b.m_data.take b.m_size ++ [0]).length = b.m_size + 1 := by
      have := hb.1
      have := hb.2.1
      simp
      omega
    rw [List.take_left' h1, take_succ_sentinel _ _ hb.2.2]

theorem ensure_eq_of_le (b : Buf) (d : Nat) (h : d ≤ b.m_capacity) :
    b.ensure_capacity_for d = b := by
  unfold ensure_capacity_for
  rw [if_pos h]

theorem ensure_eq_of_gt (b : Buf) (d : Nat) (h : b.m_capacity < d) :
    b.ensure_capacity_for d =
      b.reserve (if b.m_capacity = 0 then d
                 else max d (b.m_capacity * 3 / 2 + 8)) := by
  unfold ensure_capacity_for
  rw [if_neg (by omega)]
  show b.reserve (if (if b.m_capacity = 0 then d else b.m_capacity * 3 / 2 + 8) < d
                  then d
                  else if b.m_capacity = 0 then d else b.m_capacity * 3 / 2 + 8) = _
  congr 1
  by_cases h0 : b.m_capacity = 0
  · simp [h0]
  · simp only [if_neg h0]
    rw [Nat.max_def]
    by_cases h1 : b.m_capacity * 3 / 2 + 8 < d
    · rw [if_pos h1, if_neg (by omega)]
    · rw [if_neg h1, if_pos (by omega)]

theorem ensure_size (b : Buf) (d : Nat) :
    (b.ensure_capacity_for d).m_size = b.m_size := by
  by_cases h : d ≤ b.m_capacity
  · rw [ensure_eq_of_le b d h]
  · rw [ensure_eq_of_gt b d (by omega)]
    exact reserve_size _ _

theorem ensure_cap_ge (b : Buf) (d : Nat) :
    d ≤ (b.ensure_capacity_for d).m_capacity := by
  by_cases h : d ≤ b.m_capacity
  · rw [ensure_eq_of_le b d h]
    exact h
  · rw [ensure_eq_of_gt b d (by omega)]
    have harg : b.m_capacity <
        (if b.m_capacity = 0 then d else max d (b.m_capacity * 3 / 2 + 8)) := by
      by_cases h0 : b.m_capacity = 0
      · rw [if_pos h0]
        omega
      · rw [if_neg h0]
        have := Nat.le_max_left d (b.m_capacity * 3 / 2 + 8)
        omega
    rw [reserve_cap_of_gt _ _ harg]
    by_cases h0 : b.m_capacity = 0
    · rw [if_pos h0]
    · rw [if_neg h0]
      exact Nat.le_max_left _ _

theorem ensure_Inv (b : Buf) (d : Nat) (hb : b.Inv) :
    Inv (b.ensure_capacity_for d) := by
  by_cases h : d ≤ b.m_capacity
  · rw [ensure_eq_of_le b d h]
    exact hb
  · rw [ensure_eq_of_gt b d (by omega)]
    exact reserve_Inv _ _ hb

theorem ensure_take (b : Buf) (d : Nat) (hb : b.Inv) :
    (b.ensure_capacity_for d).m_data.take (b.m_size + 1) =
      b.m_data.take (b.m_size + 1) := by
  by_cases h : d ≤ b.m_capacity
  · rw [ensure_eq_of_le b d h]
  · rw [ensure_eq_of_gt b d (by omega)]
    exact reserve_take _ _ hb

theorem getElem?_set_self_of_lt (l : List Nat) (i v : Nat) (h : i < l.length) :
    (l.set i v)[i]? = some v := by
  simp [List.getElem?_set]
  omega

theorem take_of_take_succ (x y : List Nat) (k : Nat)
    (h : x.take (k + 1) = y.take (k + 1)) : x.take k = y.take k := by
  have h2 := congrArg (List.take k) h
  rw [List.take_take, List.take_take] at h2
  have h3 : min k (k + 1) = k := by omega
  rw [h3] at h2
  exact h2

theorem push_back_Inv (b : Buf) (c : Nat) (hb : b.Inv) : Inv (b.push_back c) := by
  have h' := ensure_Inv b (b.m_size + 1) hb
  have hsz := ensure_size b (b.m_size + 1)
  have hge := ensure_cap_ge b (b.m_size + 1)
  show Inv ⟨((b.ensure_capacity_for (b.m_size + 1)).m_data.set
              (b.ensure_capacity_for (b.m_size + 1)).m_size c).set
              ((b.ensure_capacity_for (b.m_size + 1)).m_size + 1) 0,
            (b.ensure_capacity_for (b.m_size + 1)).m_size + 1,
            (b.ensure_capacity_for (b.m_size + 1)).m_capacity⟩
  set b' := b.ensure_capacity_for (b.m_size + 1) with hb'
  have hdlen : b'.m_data.length = b'.m_capacity + 1 := h'.1
  refine ⟨?_, ?_, ?_⟩
  · show ((b'.m_data.set b'.m_size c).set (b'.m_size + 1) 0).length = b'.m_capacity + 1
    simp [hdlen]
  · show b'.m_size + 1 ≤ b'.m_capacity
    omega
  · show ((b'.m_data.set b'.m_size c).set (b'.m_size + 1) 0)[b'.m_size + 1]? = some 0
    apply getElem?_set_self_of_lt
    simp only [List.length_set, hdlen]
    omega

theorem append_some_eq (b : Buf) (s : List Nat) :
    b.append (some s) =
      (⟨(memwrite (b.ensure_capacity_for (b.m_size + strlen s)).m_data
            (b.ensure_capacity_for (b.m_size + strlen s)).m_size
            (s.take (strlen s))).set
          ((b.ensure_capacity_for (b.m_size + strlen s)).m_size + strlen s) 0,
        (b.ensure_capacity_for (b.m_size + strlen s)).m_size + strlen s,
        (b.ensure_capacity_for (b.m_size + strlen s)).m_capacity⟩,
       none) := rfl

theorem append_some_spec (b : Buf) (s : List Nat) (hb : b.Inv) :
    (b.append (some s)).2 = none ∧
    (b.append (some s)).1.m_size = b.m_size + strlen s ∧
    (b.append (some s)).1.m_data.take (b.m_size + strlen s) =
      b.m_data.take b.m_size ++ s.take (strlen s) ∧
    Inv (b.append (some s)).1 := by
  have h' := ensure_Inv b (b.m_size + strlen s) hb
  have hsz := ensure_size b (b.m_size + strlen s)
  have hge := ensure_cap_ge b (b.m_size + strlen s)
  have htk := ensure_take b (b.m_size + strlen s) hb
  rw [append_some_eq]
  set b' := b.ensure_capacity_for (b.m_size + strlen s) with hb'
  have hdlen : b'.m_data.length = b'.m_capacity + 1 := h'.1
  have hln : (s.take (strlen s)).length = strlen s := length_take_strlen s
  have hmwlen : (memwrite b'.m_data b'.m_size (s.take (strlen s))).length
      = b'.m_data.length := by
    apply length_memwrite
    rw [hln]
    omega
  refine ⟨rfl, ?_, ?_, ?_, ?_, ?_⟩
  · show b'.m_size + strlen s = b.m_size + strlen s
    rw [hsz]
  · show ((memwrite b'.m_data b'.m_size (s.take (strlen s))).set
        (b'.m_size + strlen s) 0).take (b.m_size + strlen s) =
      b.m_data.take b.m_size ++ s.take (strlen s)
    rw [← hsz]
    rw [take_set_of_le _ _ _ _ (Nat.le_refl _)]
    have hidx : b'.m_size + strlen s = b'.m_size + (s.take (strlen s)).length := by
      rw [hln]
    rw [hidx, take_memwrite_full _ _ _ (by omega)]
    have h5 := take_of_take_succ _ _ _ htk
    rw [hsz]
    rw [h5]
  · show ((memwrite b'.m_data b'.m_size (s.take (strlen s))).set
        (b'.m_size + strlen s) 0).length = b'.m_capacity + 1
    simp only [List.length_set, hmwlen, hdlen]
  · show b'.m_size + strlen s ≤ b'.m_capacity
    omega
  · show ((memwrite b'.m_data b'.m_size (s.take (strlen s))).set
        (b'.m_size + strlen s) 0)[b'.m_size + strlen s]? = some 0
    apply getElem?_set_self_of_lt
    rw [hmwlen, hdlen]
    omega

theorem append_Inv (b : Buf) (s : List Nat) (hb : b.Inv) :
    Inv (b.append (some s)).1 :=
  (append_some_spec b s hb).2.2.2

theorem assign_none (b : Buf) : b.assign none = (b, some .invalidArgument) := rfl

theorem append_none (b : Buf) : b.append none = (b, some .invalidArgument) := rfl

theorem assign_grow_eq (b : Buf) (s : List Nat) (h : b.m_capacity < strlen s) :
    b.assign (some s) = (fromCStr s, none) := by
  show (if b.m_capacity < strlen s then (fromCStr s, none) else _) = _
  rw [if_pos h]

theorem assign_fits_eq (b : Buf) (s : List Nat) (h : strlen s ≤ b.m_capacity) :
    b.assign (some s) =
      (⟨(memwrite b.m_data 0 (s.take (strlen s))).set (strlen s) 0,
        strlen s, b.m_capacity⟩, none) := by
  show (if b.m_capacity < strlen s then (fromCStr s, none)
        else (⟨(memwrite b.m_data 0 (s.take (strlen s))).set (strlen s) 0,
               strlen s, b.m_capacity⟩, none)) = _
  rw [if_neg (by omega)]

theorem assign_fits_spec (b : Buf) (s : List Nat) (hb : b.Inv)
    (h : strlen s ≤ b.m_capacity) :
    (b.assign (some s)).2 = none ∧
    (b.assign (some s)).1.m_size = strlen s ∧
    (b.assign (some s)).1.m_capacity = b.m_capacity ∧
    (b.assign (some s)).1.m_data.take (strlen s) = s.take (strlen s) ∧
    Inv (b.assign (some s)).1 := by
  rw [assign_fits_eq b s h]
  have hdlen : b.m_data.length = b.m_capacity + 1 := hb.1
  have hln : (s.take (strlen s)).length = strlen s := length_take_strlen s
  have hmw : (memwrite b.m_data 0 (s.take (strlen s))).length = b.m_data.length := by
    apply length_memwrite
    omega
  refine ⟨rfl, rfl, rfl, ?_, ?_, ?_, ?_⟩
  · show ((memwrite b.m_data 0 (s.take (strlen s))).set (strlen s) 0).take (strlen s)
        = s.take (strlen s)
    rw [take_set_of_le _ _ _ _ (Nat.le_refl _)]
    have h4 := take_memwrite_full b.m_data (s.take (strlen s)) 0 (by omega)
    simp only [Nat.zero_add, List.take_zero, List.nil_append] at h4
    rw [hln] at h4
    exact h4
  · show ((memwrite b.m_data 0 (s.take (strlen s))).set (strlen s) 0).length
        = b.m_capacity + 1
    simp only [List.length_set, hmw, hdlen]
  · exact h
  · show ((memwrite b.m_data 0 (s.take (strlen s))).set (strlen s) 0)[strlen s]?
        = some 0
    apply getElem?_set_self_of_lt
    rw [hmw, hdlen]
    omega

theorem assign_Inv (b : Buf) (s : List Nat) (hb : b.Inv) :
    Inv (b.assign (some s)).1 := by
  by_cases h : b.m_capacity < strlen s
  · rw [assign_grow_eq b s h]
    exact fromCStr_Inv s
  · exact (assign_fits_spec b s hb (by omega)).2.2.2.2

theorem clear_Inv (b : Buf) (hb : b.Inv) : Inv b.clear := by
  have hdlen : b.m_data.length = b.m_capacity + 1 := hb.1
  refine ⟨?_, ?_, ?_⟩
  · show (b.m_data.set 0 0).length = b.m_capacity + 1
    simp [hdlen]
  · show 0 ≤ b.m_capacity
    omega
  · show (b.m_data.set 0 0)[0]? = some 0
    apply getElem?_set_self_of_lt
    omega

theorem shrink_eq_of_ne (b : Buf) (h : b.m_capacity ≠ b.m_size) :
    b.shrink_to_fit = copyBuf b := by
  unfold shrink_to_fit copyBuf
  rw [if_neg h]

theorem shrink_Inv (b : Buf) (hb : b.Inv) : Inv b.shrink_to_fit := by
  by_cases h : b.m_capacity = b.m_size
  · unfold shrink_to_fit
    rw [if_pos h]
    exact hb
  · rw [shrink_eq_of_ne b h]
    exact copyBuf_Inv b hb

theorem moveBuf_fst_Inv (b : Buf) (hb : b.Inv) : Inv (moveBuf b).1 := hb

theorem moveBuf_snd_Inv (b : Buf) : Inv (moveBuf b).2 := by
  show Inv ⟨[0], 0, 0⟩
  decide

theorem concatBB_Inv (l r : Buf) (hl : l.Inv) : Inv (concatBB l r) :=
  append_Inv (copyBuf l) r.m_data (copyBuf_Inv l hl)

theorem Inv.toSentinelAndLen {b : Buf} (h : b.Inv) : b.sentinelAndLen :=
  ⟨h.2.2, h.2.1⟩

end Buf

/-! ## Lemmas about the C-string routines -/

namespace Cstr

theorem zero_not_mem_take_strlen (s : List Nat) : 0 ∉ s.take (strlen s) := by
  induction s with
  | nil => simp [strlen]
  | cons b r ih =>
    by_cases hb : b = 0
    · simp [strlen, hb]
    · simp only [strlen, if_neg hb, List.take_succ_cons, List.mem_cons]
      intro h
      rcases h with h | h
      · exact hb h.symm
      · exact ih h

theorem StringCat_eq (d0 rest src : List Nat) (hd : 0 ∉ d0) :
    StringCat (d0 ++ 0 :: rest) src =
      (d0 ++ src.take (strlen src)) ++
        0 :: (d0 ++ 0 :: rest).drop (d0.length + strlen src + 1) := by
  unfold StringCat cstrBytes memwrite
  rw [strlen_sentinel d0 rest hd]
  rw [List.take_left' rfl]
  have hlen : (src.take (strlen src) ++ [0]).length = strlen src + 1 := by
    simp only [List.length_append, List.length_cons, List.length_nil,
      length_take_strlen]
  rw [hlen]
  have harith : d0.length + (strlen src + 1) = d0.length + strlen src + 1 := by omega
  rw [harith]
  simp [List.append_assoc]

end Cstr

/-! ## The claims -/

/-- C1: for every pair of invariant-satisfying Buffer states and every
operation of the public interface (construct, copy, move, assign, clear,
push_back, append, reserve, shrink_to_fit, swap, concatenation), after the
operation completes the byte at offset `length` is the sentinel
(`data[length] == 0`) and `length ≤ capacity`. -/
theorem claim_C1_invariants (b b2 : Buf) (s : List Nat) (c n : Nat)
    (hb : b.Inv) (hb2 : b2.Inv) : Buf.afterEveryOp b b2 s c n := by
  unfold Buf.afterEveryOp
  refine ⟨Buf.emptyBuf_Inv.toSentinelAndLen,
    (Buf.fromCStr_Inv s).toSentinelAndLen,
    (Buf.copyBuf_Inv b hb).toSentinelAndLen,
    (Buf.moveBuf_fst_Inv b hb).toSentinelAndLen,
    (Buf.moveBuf_snd_Inv b).toSentinelAndLen,
    (Buf.copyBuf_Inv b2 hb2).toSentinelAndLen,
    (Buf.moveBuf_fst_Inv b2 hb2).toSentinelAndLen,
    (Buf.moveBuf_snd_Inv b2).toSentinelAndLen,
    (Buf.clear_Inv b hb).toSentinelAndLen,
    (Buf.push_back_Inv b c hb).toSentinelAndLen,
    (Buf.append_Inv b s hb).toSentinelAndLen,
    hb.toSentinelAndLen,
    (Buf.assign_Inv b s hb).toSentinelAndLen,
    hb.toSentinelAndLen,
    (Buf.reserve_Inv b n hb).toSentinelAndLen,
    (Buf.shrink_Inv b hb).toSentinelAndLen,
    hb2.toSentinelAndLen,
    hb.toSentinelAndLen,
    (Buf.concatBB_Inv b b2 hb).toSentinelAndLen,
    ?_⟩
  intro rr hr
  have h1 : (Except.ok ((Buf.copyBuf b).append (some s)).1 : Except Err Buf)
      = Except.ok rr := hr
  injection h1 with h2
  rw [← h2]
  exact (Buf.append_Inv (Buf.copyBuf b) s (Buf.copyBuf_Inv b hb)).toSentinelAndLen

/-- C1 witness: both invariants hold after every operation starting from the
one-character buffer "h" (capacity 2) and the empty buffer, with source
"x", appended byte 97, reserve request 5. -/
theorem claim_C1_invariants_witness :
    Buf.Inv ⟨[104, 0, 170], 1, 2⟩ ∧ Buf.Inv ⟨[0], 0, 0⟩ ∧
    Buf.afterEveryOp ⟨[104, 0, 170], 1, 2⟩ ⟨[0], 0, 0⟩ [120, 0] 97 5 :=
  ⟨by decide, by decide,
   claim_C1_invariants ⟨[104, 0, 170], 1, 2⟩ ⟨[0], 0, 0⟩ [120, 0] 97 5
     (by decide) (by decide)⟩

/-- C2: whenever the required length `d` exceeds the current capacity, the
growth step sets the new capacity to exactly `d` when the capacity is 0,
and to `max d (capacity * 3 / 2 + 8)` (truncating integer division)
otherwise. -/
theorem claim_C2_growth (b : Buf) (d : Nat) (h : b.m_capacity < d) :
    (b.ensure_capacity_for d).m_capacity =
      if b.m_capacity = 0 then d else max d (b.m_capacity * 3 / 2 + 8) := by
  rw [Buf.ensure_eq_of_gt b d h]
  apply Buf.reserve_cap_of_gt
  by_cases h0 : b.m_capacity = 0
  · rw [if_pos h0]
    omega
  · rw [if_neg h0]
    have := Nat.le_max_left d (b.m_capacity * 3 / 2 + 8)
    omega

/-- C2 witness: growing a capacity-1 buffer to hold 2 bytes yields
capacity `max 2 (1 * 3 / 2 + 8) = 9`. -/
theorem claim_C2_growth_witness :
    (⟨[104, 0], 1, 1⟩ : Buf).m_capacity < 2 ∧
    ((⟨[104, 0], 1, 1⟩ : Buf).ensure_capacity_for 2).m_capacity =
      (if (⟨[104, 0], 1, 1⟩ : Buf).m_capacity = 0 then 2
       else max 2 ((⟨[104, 0], 1, 1⟩ : Buf).m_capacity * 3 / 2 + 8)) :=
  ⟨by decide, claim_C2_growth ⟨[104, 0], 1, 1⟩ 2 (by decide)⟩

/-- C3 counterexample: when the 1-byte allocation of the default
constructor fails, the constructor propagates `std::bad_alloc` to the
caller — an exception outcome, not an abort.  (The constructor is not
`noexcept`; the source comments say "removed noexcept - calls new which
might throw" and "Functions throw std::bad_alloc on allocation failure".)
This refutes the claim that construction failure is fatal and that no
recoverable error is propagated. -/
theorem claim_C3_counterexample :
    mkEmptyAlloc false = CtorOutcome.thrown Err.badAlloc ∧
    mkEmptyAlloc false ≠ CtorOutcome.aborted := by decide

/-- C3 amended: constructing an empty Buffer yields length 0, capacity 0,
and the sentinel present; if allocation of its 1-byte region fails, the
constructor propagates a `bad_alloc` exception to the caller (a recoverable
failure), and the object is not constructed. -/
theorem claim_C3_empty_construct :
    mkEmptyAlloc true = CtorOutcome.ok Buf.emptyBuf ∧
    Buf.emptyBuf.m_size = 0 ∧
    Buf.emptyBuf.m_capacity = 0 ∧
    Buf.emptyBuf.m_data[Buf.emptyBuf.m_size]? = some 0 ∧
    mkEmptyAlloc false = CtorOutcome.thrown Err.badAlloc := by decide

/-- C5: moving from a Buffer (move construction or move assignment) never
fails (both are total functions with no error component), the target takes
over exactly the source's former members, and the moved-from source is the
canonical empty state — size 0, capacity 0, the 1-byte sentinel region —
and behaves under `append` exactly as a fresh empty Buffer. -/
theorem claim_C5_move (t b : Buf) :
    (Buf.moveBuf b).1 = b ∧
    (Buf.moveBuf b).2 = Buf.emptyBuf ∧
    (Buf.moveBuf b).2.m_size = 0 ∧
    (Buf.moveBuf b).2.m_capacity = 0 ∧
    (Buf.moveBuf b).2.m_data[(Buf.moveBuf b).2.m_size]? = some 0 ∧
    (∀ s, (Buf.moveBuf b).2.append s = Buf.emptyBuf.append s) ∧
    (Buf.move_assign t b).1 = b ∧
    (Buf.move_assign t b).2 = Buf.emptyBuf :=
  ⟨rfl, rfl, rfl, rfl, rfl, fun _ => rfl, rfl, rfl⟩

/-- C8: a null source argument to construct-from-source, `assign`, or
`append` is reported immediately as `invalid_argument` and the operation
has no effect — the Buffer state returned is exactly the state before the
call. -/
theorem claim_C8_null_rejection (b : Buf) :
    Buf.mkFromC none = Except.error Err.invalidArgument ∧
    b.assign none = (b, some Err.invalidArgument) ∧
    b.append none = (b, some Err.invalidArgument) :=
  ⟨rfl, rfl, rfl⟩

/-- C4: constructing a Buffer from any sentinel-terminated sequence
(content `c` with no interior sentinel, terminator, arbitrary trailing
bytes `r`) and reading it back through the sentinel-terminated view
(`c_str`) yields exactly that sequence — content `c` followed by the
sentinel — with `size` and `capacity` both equal to the content length
(exact-fit allocation).  This includes the empty sequence `c = []`. -/
theorem claim_C4_roundtrip (c r : List Nat) (hc : 0 ∉ c) :
    (Buf.fromCStr (c ++ 0 :: r)).c_str = c ++ [0] ∧
    strlen (Buf.fromCStr (c ++ 0 :: r)).c_str = c.length ∧
    (Buf.fromCStr (c ++ 0 :: r)).size = c.length ∧
    (Buf.fromCStr (c ++ 0 :: r)).capacity = c.length := by
  have h1 : (c ++ 0 :: r).take (strlen (c ++ 0 :: r)) = c :=
    take_strlen_sentinel c r hc
  have h2 : strlen (c ++ 0 :: r) = c.length := strlen_sentinel c r hc
  rw [Buf.fromCStr_eq]
  unfold Buf.c_str Buf.size Buf.capacity
  rw [h1, h2]
  exact ⟨rfl, strlen_sentinel c [] hc, rfl, rfl⟩

/-- C4 witness: round-trip of the two-byte sequence "hi" with one byte of
trailing garbage after its terminator. -/
theorem claim_C4_roundtrip_witness :
    (0 : Nat) ∉ [104, 105] ∧
    ((Buf.fromCStr ([104, 105] ++ 0 :: [170])).c_str = [104, 105] ++ [0] ∧
     strlen (Buf.fromCStr ([104, 105] ++ 0 :: [170])).c_str = 2 ∧
     (Buf.fromCStr ([104, 105] ++ 0 :: [170])).size = 2 ∧
     (Buf.fromCStr ([104, 105] ++ 0 :: [170])).capacity = 2) :=
  ⟨by decide, claim_C4_roundtrip [104, 105] [170] (by decide)⟩

/-- C6: assigning a sentinel-terminated source whose length fits the
current capacity reuses the region in place: no error, new length is the
source length, content is exactly the source content, and the capacity is
unchanged. -/
theorem claim_C6_assign_in_place (b : Buf) (c r : List Nat) (hb : b.Inv)
    (hc : 0 ∉ c) (hfit : c.length ≤ b.m_capacity) :
    (b.assign (some (c ++ 0 :: r))).2 = none ∧
    (b.assign (some (c ++ 0 :: r))).1.m_size = c.length ∧
    (b.assign (some (c ++ 0 :: r))).1.m_capacity = b.m_capacity ∧
    (b.assign (some (c ++ 0 :: r))).1.content = c := by
  have h2 : strlen (c ++ 0 :: r) = c.length := strlen_sentinel c r hc
  obtain ⟨e1, e2, e3, e4, _⟩ :=
    Buf.assign_fits_spec b (c ++ 0 :: r) hb (by rw [h2]; exact hfit)
  refine ⟨e1, by rw [e2, h2], e3, ?_⟩
  unfold Buf.content
  rw [e2]
  rw [h2] at e4
  rw [List.take_left c (0 :: r)] at e4
  rw [h2, e4]

/-- C6 witness: the spec scenario — a Buffer built from "hello"
(length 5, capacity 5); `assign("hi")` yields length 2, content "hi",
capacity still 5, with no reallocation. -/
theorem claim_C6_assign_in_place_witness :
    (Buf.fromCStr [104, 101, 108, 108, 111, 0]).Inv ∧
    (0 : Nat) ∉ [104, 105] ∧
    [104, 105].length ≤ (Buf.fromCStr [104, 101, 108, 108, 111, 0]).m_capacity ∧
    (((Buf.fromCStr [104, 101, 108, 108, 111, 0]).assign
        (some ([104, 105] ++ 0 :: []))).2 = none ∧
     ((Buf.fromCStr [104, 101, 108, 108, 111, 0]).assign
        (some ([104, 105] ++ 0 :: []))).1.m_size = [104, 105].length ∧
     ((Buf.fromCStr [104, 101, 108, 108, 111, 0]).assign
        (some ([104, 105] ++ 0 :: []))).1.m_capacity =
       (Buf.fromCStr [104, 101, 108, 108, 111, 0]).m_capacity ∧
     ((Buf.fromCStr [104, 101, 108, 108, 111, 0]).assign
        (some ([104, 105] ++ 0 :: []))).1.content = [104, 105]) :=
  ⟨by decide, by decide, by decide,
   claim_C6_assign_in_place (Buf.fromCStr [104, 101, 108, 108, 111, 0])
     [104, 105] [] (by decide) (by decide) (by decide)⟩

/-- C7: appending a sentinel-terminated input of content `x` (length K) to
an invariant-satisfying Buffer of length L yields length `L + K`, leaves
the first L bytes unchanged, places the K bytes of the input immediately
after them, and restores the sentinel at offset `L + K`. -/
theorem claim_C7_append (b : Buf) (x r : List Nat) (hb : b.Inv)
    (hx : 0 ∉ x) :
    (b.append (some (x ++ 0 :: r))).2 = none ∧
    (b.append (some (x ++ 0 :: r))).1.m_size = b.m_size + x.length ∧
    (b.append (some (x ++ 0 :: r))).1.m_data.take b.m_size =
      b.m_data.take b.m_size ∧
    (b.append (some (x ++ 0 :: r))).1.m_data.take (b.m_size + x.length) =
      b.m_data.take b.m_size ++ x ∧
    (b.append (some (x ++ 0 :: r))).1.m_data[b.m_size + x.length]? = some 0 := by
  have h2 : strlen (x ++ 0 :: r) = x.length := strlen_sentinel x r hx
  obtain ⟨e1, e2, e3, hInv⟩ := Buf.append_some_spec b (x ++ 0 :: r) hb
  rw [h2] at e2 e3
  rw [List.take_left x (0 :: r)] at e3
  have hsent := hInv.2.2
  rw [e2] at hsent
  refine ⟨e1, e2, ?_, e3, hsent⟩
  have h4 := congrArg (List.take b.m_size) e3
  rw [List.take_take] at h4
  have h5 : min b.m_size (b.m_size + x.length) = b.m_size := by omega
  rw [h5] at h4
  have h6 : (b.m_data.take b.m_size).length = b.m_size := by
    have := hb.1
    have := hb.2.1
    simp
    omega
  rw [List.take_left' h6] at h4
  exact h4

/-- C7 witness: appending "ij" to the one-character buffer "h" gives
length 3, preserved first byte, then the two appended bytes, then the
sentinel. -/
theorem claim_C7_append_witness :
    (⟨[104, 0, 170], 1, 2⟩ : Buf).Inv ∧ (0 : Nat) ∉ [105, 106] ∧
    (((⟨[104, 0, 170], 1, 2⟩ : Buf).append (some ([105, 106] ++ 0 :: []))).2 = none ∧
     ((⟨[104, 0, 170], 1, 2⟩ : Buf).append
        (some ([105, 106] ++ 0 :: []))).1.m_size = 1 + [105, 106].length ∧
     ((⟨[104, 0, 170], 1, 2⟩ : Buf).append
        (some ([105, 106] ++ 0 :: []))).1.m_data.take 1 =
       [104, 0, 170].take 1 ∧
     ((⟨[104, 0, 170], 1, 2⟩ : Buf).append
        (some ([105, 106] ++ 0 :: []))).1.m_data.take (1 + [105, 106].length) =
       [104, 0, 170].take 1 ++ [105, 106] ∧
     ((⟨[104, 0, 170], 1, 2⟩ : Buf).append
        (some ([105, 106] ++ 0 :: []))).1.m_data[1 + [105, 106].length]? =
       some 0) :=
  ⟨by decide, by decide,
   claim_C7_append ⟨[104, 0, 170], 1, 2⟩ [105, 106] [] (by decide) (by decide)⟩

/-- C9: for a destination region that is sentinel-terminated (content `d0`,
length `Ld = strlen`, then the sentinel, then `rest`) with room for the
source's content plus sentinel (`strlen src ≤ rest.length`), `StringCat`
leaves the first Ld bytes unchanged, places the source's `Ls` bytes
followed by the sentinel immediately after them, makes `strlen` of the
destination equal `Ld + Ls`, and writes only within the original region
(same length; the C function returns the original `dst` pointer, rendered
here as the updated contents of that same region). -/
theorem claim_C9_concatenate (d0 rest src : List Nat) (hd : 0 ∉ d0)
    (hroom : strlen src ≤ rest.length) :
    (Cstr.StringCat (d0 ++ 0 :: rest) src).take d0.length = d0 ∧
    (Cstr.StringCat (d0 ++ 0 :: rest) src).take (d0.length + strlen src) =
      d0 ++ src.take (strlen src) ∧
    (Cstr.StringCat (d0 ++ 0 :: rest) src)[d0.length + strlen src]? = some 0 ∧
    strlen (Cstr.StringCat (d0 ++ 0 :: rest) src) = d0.length + strlen src ∧
    (Cstr.StringCat (d0 ++ 0 :: rest) src).length = (d0 ++ 0 :: rest).length := by
  rw [Cstr.StringCat_eq d0 rest src hd]
  have hlen0 : (d0 ++ src.take (strlen src)).length = d0.length + strlen src := by
    simp only [List.length_append, length_take_strlen]
  refine ⟨?_, ?_, ?_, ?_, ?_⟩
  · have h1 : ((d0 ++ src.take (strlen src)) ++
        0 :: (d0 ++ 0 :: rest).drop (d0.length + strlen src + 1)).take
          (d0.length + strlen src) = d0 ++ src.take (strlen src) :=
      List.take_left' hlen0
    have h4 := congrArg (List.take d0.length) h1
    rw [List.take_take] at h4
    have h5 : min d0.length (d0.length + strlen src) = d0.length := by omega
    rw [h5] at h4
    rw [List.take_left d0 (src.take (strlen src))] at h4
    exact h4
  · exact List.take_left' hlen0
  · rw [List.getElem?_append_right (by rw [hlen0])]
    rw [hlen0, Nat.sub_self]
    simp
  · have hc2 : (0 : Nat) ∉ d0 ++ src.take (strlen src) := by
      intro h
      rcases List.mem_append.1 h with h | h
      · exact hd h
      · exact Cstr.zero_not_mem_take_strlen src h
    rw [strlen_sentinel (d0 ++ src.take (strlen src)) _ hc2]
    exact hlen0
  · simp only [List.length_append, List.length_cons, List.length_drop,
      length_take_strlen]
    omega

/-- C9 witness: the spec scenario — concatenating "World" to "Hello " held
in a fixed region with five spare bytes yields "Hello World" with
`strlen` 11. -/
theorem claim_C9_concatenate_witness :
    (0 : Nat) ∉ [72, 101, 108, 108, 111, 32] ∧
    strlen [87, 111, 114, 108, 100, 0] ≤ [170, 170, 170, 170, 170].length ∧
    ((Cstr.StringCat ([72, 101, 108, 108, 111, 32] ++ 0 :: [170, 170, 170, 170, 170])
        [87, 111, 114, 108, 100, 0]).take 6 = [72, 101, 108, 108, 111, 32] ∧
     (Cstr.StringCat ([72, 101, 108, 108, 111, 32] ++ 0 :: [170, 170, 170, 170, 170])
        [87, 111, 114, 108, 100, 0]).take 11 =
       [72, 101, 108, 108, 111, 32] ++ [87, 111, 114, 108, 100] ∧
     (Cstr.StringCat ([72, 101, 108, 108, 111, 32] ++ 0 :: [170, 170, 170, 170, 170])
        [87, 111, 114, 108, 100, 0])[11]? = some 0 ∧
     strlen (Cstr.StringCat ([72, 101, 108, 108, 111, 32] ++ 0 :: [170, 170, 170, 170, 170])
        [87, 111, 114, 108, 100, 0]) = 11 ∧
     (Cstr.StringCat ([72, 101, 108, 108, 111, 32] ++ 0 :: [170, 170, 170, 170, 170])
        [87, 111, 114, 108, 100, 0]).length =
       ([72, 101, 108, 108, 111, 32] ++ 0 :: [170, 170, 170, 170, 170]).length) :=
  ⟨by decide, by decide,
   claim_C9_concatenate [72, 101, 108, 108, 111, 32] [170, 170, 170, 170, 170]
     [87, 111, 114, 108, 100, 0] (by decide) (by decide)⟩

/-- C10 counterexample: self-assignment does NOT always preserve the
capacity.  Starting from the Buffer built from "hello" (capacity 5) after
`assign("hi")` (size 2, capacity still 5), self-assignment goes through the
by-value parameter — an exact-fit copy — so the capacity becomes 2, not 5.
This refutes the claim that self-assignment leaves the capacity
unchanged. -/
theorem claim_C10_counterexample :
    (Buf.copy_assign
        ((Buf.fromCStr [104, 101, 108, 108, 111, 0]).assign
          (some [104, 105, 0])).1
        ((Buf.fromCStr [104, 101, 108, 108, 111, 0]).assign
          (some [104, 105, 0])).1).m_capacity ≠
      (((Buf.fromCStr [104, 101, 108, 108, 111, 0]).assign
          (some [104, 105, 0])).1).m_capacity := by
  decide

/-- C10 amended: self-assignment through the by-value copy-and-swap
assignment operator leaves the size and the content unchanged, and sets the
capacity to exactly the size (the parameter is an exact-fit copy); the
capacity is therefore unchanged precisely when it already equals the
size. -/
theorem claim_C10_self_assign (b : Buf) (hb : b.Inv) :
    (Buf.copy_assign b b).m_size = b.m_size ∧
    (Buf.copy_assign b b).content = b.content ∧
    (Buf.copy_assign b b).m_capacity = b.m_size := by
  show (Buf.copyBuf b).m_size = b.m_size ∧
    (Buf.copyBuf b).content = b.content ∧
    (Buf.copyBuf b).m_capacity = b.m_size
  rw [Buf.copyBuf_eq b hb]
  refine ⟨rfl, ?_, rfl⟩
  unfold Buf.content
  show (b.m_data.take b.m_size ++ [0]).take b.m_size = b.m_data.take b.m_size
  have h6 : (b.m_data.take b.m_size).length = b.m_size := by
    have := hb.1
    have := hb.2.1
    simp
    omega
  exact List.take_left' h6

/-- C10 amended witness: self-assignment of the one-character buffer "h"
held with capacity 2 keeps size 1 and content, and shrinks capacity to 1. -/
theorem claim_C10_self_assign_witness :
    (⟨[104, 0, 170], 1, 2⟩ : Buf).Inv ∧
    ((Buf.copy_assign ⟨[104, 0, 170], 1, 2⟩ ⟨[104, 0, 170], 1, 2⟩).m_size = 1 ∧
     (Buf.copy_assign ⟨[104, 0, 170], 1, 2⟩ ⟨[104, 0, 170], 1, 2⟩).content =
       (⟨[104, 0, 170], 1, 2⟩ : Buf).content ∧
     (Buf.copy_assign ⟨[104, 0, 170], 1, 2⟩ ⟨[104, 0, 170], 1, 2⟩).m_capacity = 1) :=
  ⟨by decide, claim_C10_self_assign ⟨[104, 0, 170], 1, 2⟩ (by decide)⟩
